import Mathlib

/-!
Verification development for the SScanSS-2 kinematics core.

The positioning-stack operations (`PositioningStack` in
`sscanss/core/instrument/instrument.py`) are embedded directly from the
source.  The serial-manipulator chains they compose
(`sscanss.core.instrument.robotics.SerialManipulator` and `Link`) are not
part of the sources at hand, so they are modelled from the specification
(§3 "Kinematic Chain", §4.1): rigid transforms are represented by an
arbitrary group `G`, a link's geometric content (rotation about its axis
by a value, or translation along its axis by a value, preceded by the
`offset_vector` translation) is abstracted into an `offsetT : G` and a
`joint : ℚ → G` transform-valued function of the joint value, and joint
values are rationals.  All bookkeeping (current value vs. set-point,
locks, limit clamping) follows the specification text.
-/

namespace SScanSS

/-- Clamp a joint value to the closed interval `[lo, hi]`. -/
def clamp (v lo hi : ℚ) : ℚ := min (max v lo) hi

/-- Modelled from the spec: one joint of a kinematic chain (§3 "Link").
`offsetT` is the fixed offset translation, `joint v` the local joint
transform at value `v` (rotation about the axis for Revolute, translation
along it for Prismatic); both live in the transform group `G`. -/
structure Link (G : Type) where
  offsetT : G
  joint : ℚ → G
  lower_limit : ℚ
  upper_limit : ℚ
  locked : Bool
  ignore_limits : Bool
  current_value : ℚ
  set_point : ℚ

/-- Local transform contributed by a link at its current value. -/
def Link.localT {G : Type} [Group G] (l : Link G) : G :=
  l.offsetT * l.joint l.current_value

/-- Modelled from the spec: one step of `forwardKinematics` on a link
(§4.1): the effective value is the set-point when locks are honoured and
the link is locked, else the supplied value clamped to the limits unless
`ignore_limits`; the effective value is written to `current_value` and,
when `setpoint` is true, the supplied value to `set_point`. -/
def Link.moveTo {G : Type} (l : Link G) (v : ℚ) (ignore_locks setpoint : Bool) : Link G :=
  let eff := if !ignore_locks && l.locked then l.set_point
             else if l.ignore_limits then v
             else clamp v l.lower_limit l.upper_limit
  { l with current_value := eff, set_point := if setpoint then v else l.set_point }

/-- Modelled from the spec: a serial manipulator (§3 "Kinematic Chain"):
an ordered sequence of links plus a fixed base transform. -/
structure SerialManipulator (G : Type) where
  base : G
  links : List (Link G)

namespace SerialManipulator

variable {G : Type} [Group G]

/-- Chain pose: base transform composed, in link order, with every link's
local transform (§3). -/
def pose (m : SerialManipulator G) : G :=
  m.links.foldl (fun T l => T * l.localT) m.base

/-- Number of links in the chain. -/
def numberOfLinks (m : SerialManipulator G) : Nat := m.links.length

/-- Set-points of all links in link order. -/
def set_points (m : SerialManipulator G) : List ℚ := m.links.map (·.set_point)

/-- Current joint values of all links in link order. -/
def configuration (m : SerialManipulator G) : List ℚ := m.links.map (·.current_value)

/-- Modelled from the spec: `reset` sets every link's `current_value` and
`set_point` to the resting value 0 (§4.1). -/
def reset (m : SerialManipulator G) : SerialManipulator G :=
  { m with links := m.links.map fun l => { l with current_value := 0, set_point := 0 } }

/-- Modelled from the spec: `resetOffsets` temporarily resets the chain's
joint offsets (current values) to the resting value 0, leaving the
set-points in place (§4.2 "temporarily resetting that chain's offsets"). -/
def resetOffsets (m : SerialManipulator G) : SerialManipulator G :=
  { m with links := m.links.map fun l => { l with current_value := 0 } }

/-- Apply `Link.moveTo` link-wise to a value list, `zip`-style: links with
no corresponding value are left untouched. -/
def moveLinks {G : Type} : List (Link G) → List ℚ → Bool → Bool → List (Link G)
  | [], _, _, _ => []
  | ls, [], _, _ => ls
  | l :: ls, v :: vs, il, sp => l.moveTo v il sp :: moveLinks ls vs il sp

/-- Modelled from the spec: chain `forwardKinematics` (§4.1): moves every
link to its supplied value (subject to locks and limits) and returns the
resulting pose together with the updated chain.  The caller supplies one
value per link. -/
def fkine (m : SerialManipulator G) (q : List ℚ) (ignore_locks setpoint : Bool) :
    G × SerialManipulator G :=
  let updated : SerialManipulator G := { m with links := moveLinks m.links q ignore_locks setpoint }
  (updated.pose, updated)

end SerialManipulator

/-- Embedded from `PositioningStack.__init__` / the stack operations of
`sscanss/core/instrument/instrument.py`: a fixed chain, a trailing
`tool_link` calibration transform, auxiliary chains and the calibration
transforms (`link_matrix`) preceding each of them. -/
structure PositioningStack (G : Type) where
  name : String
  fixed : SerialManipulator G
  tool_link : G
  auxiliary : List (SerialManipulator G)
  link_matrix : List G

namespace PositioningStack

variable {G : Type} [Group G]

/-- Embedded from `PositioningStack.__init__`: the fixed chain is reset,
`tool_link` becomes the inverse of its (resting) pose, and the auxiliary
and calibration lists start empty. -/
def init (name : String) (fixed : SerialManipulator G) : PositioningStack G :=
  let f := fixed.reset
  { name := name, fixed := f, tool_link := f.pose⁻¹, auxiliary := [], link_matrix := [] }

/-- Embedded from `PositioningStack.pose`: the fixed chain's pose folded,
left to right, with `link_matrix[i] * auxiliary[i].pose` for each attached
chain. -/
def pose (s : PositioningStack G) : G :=
  (s.link_matrix.zip s.auxiliary).foldl (fun T lp => T * (lp.1 * lp.2.pose)) s.fixed.pose

/-- Embedded from `PositioningStack.tool_pose`: `pose @ tool_link`. -/
def tool_pose (s : PositioningStack G) : G := s.pose * s.tool_link

/-- Embedded from `PositioningStack.__defaultPoseInverse`: capture the
inverse of the chain's pose at its resting offsets, then restore the chain
by running its forward kinematics at the saved set-points with locks
ignored.  Returns the captured inverse together with the chain as the
save/restore leaves it. -/
def defaultPoseInverse (m : SerialManipulator G) : G × SerialManipulator G :=
  let q := m.set_points
  let m1 := m.resetOffsets
  let inv := m1.pose⁻¹
  let m2 := (m1.fkine q true true).2
  (inv, m2)

/-- Embedded from `PositioningStack.addPositioner`: reset the new chain,
set `tool_link` to the inverse of its resting pose, append it to
`auxiliary`, and append to `link_matrix` the default-pose inverse of the
chain that was last before the append (the fixed chain when there was no
auxiliary).  The save/restore inside `__defaultPoseInverse` also updates
that previous chain's state, which is written back here. -/
def addPositioner (s : PositioningStack G) (p : SerialManipulator G) : PositioningStack G :=
  let pr := p.reset
  let tl := pr.pose⁻¹
  match s.auxiliary.getLast? with
  | none =>
      let r := defaultPoseInverse s.fixed
      { s with fixed := r.2, tool_link := tl,
               auxiliary := [pr], link_matrix := s.link_matrix ++ [r.1] }
  | some last =>
      let r := defaultPoseInverse last
      { s with tool_link := tl,
               auxiliary := s.auxiliary.dropLast ++ [r.2, pr],
               link_matrix := s.link_matrix ++ [r.1] }

/-- Embedded from `PositioningStack.changeBaseMatrix`: the auxiliary chain
at `idx` gets the new base matrix; the calibration transform immediately
downstream — `link_matrix[idx+1]`, or `tool_link` when the chain is last —
is recomputed as the chain's default-pose inverse.  The Python code looks
the chain up by identity; the embedding addresses it by its index. -/
def changeBaseMatrix (s : PositioningStack G) (idx : Nat) (matrix : G) : PositioningStack G :=
  match s.auxiliary.get? idx with
  | none => s
  | some p =>
      let p1 : SerialManipulator G := { p with base := matrix }
      let r := defaultPoseInverse p1
      if idx + 1 = s.auxiliary.length then
        { s with auxiliary := s.auxiliary.set idx r.2, tool_link := r.1 }
      else
        { s with auxiliary := s.auxiliary.set idx r.2,
                 link_matrix := s.link_matrix.set (idx + 1) r.1 }

/-- Embedded from `PositioningStack.links`: the fixed chain's links
followed by each auxiliary chain's links, in attach order. -/
def links (s : PositioningStack G) : List (Link G) :=
  s.fixed.links ++ s.auxiliary.flatMap SerialManipulator.links

/-- Embedded from `PositioningStack.numberOfLinks`. -/
def numberOfLinks (s : PositioningStack G) : Nat :=
  s.fixed.numberOfLinks + (s.auxiliary.map SerialManipulator.numberOfLinks).sum

/-- Per-chain loop of the stack's `fkine`: for each
`(link_matrix entry, auxiliary chain)` pair, run the chain's forward
kinematics on the next slice of the joint vector and fold the results into
the running transform. -/
def fkineAux {G : Type} [Group G] (il sp : Bool) :
    List (G × SerialManipulator G) → List ℚ → G → G × List (SerialManipulator G)
  | [], _, T => (T, [])
  | lp :: rest, q, T =>
      let n := lp.2.numberOfLinks
      let r := lp.2.fkine (q.take n) il sp
      let rec_result := fkineAux il sp rest (q.drop n) (T * (lp.1 * r.1))
      (rec_result.1, r.2 :: rec_result.2)

/-- Embedded from `PositioningStack.fkine`: the fixed chain consumes the
first `fixed.numberOfLinks` values of `q`, then each auxiliary chain (as
paired with `link_matrix` by `zip`) consumes the next slice; the returned
transform folds the per-chain results with the calibration transforms. -/
def fkine (s : PositioningStack G) (q : List ℚ) (ignore_locks setpoint : Bool) :
    G × PositioningStack G :=
  let n := s.fixed.numberOfLinks
  let r0 := s.fixed.fkine (q.take n) ignore_locks setpoint
  let pairs := s.link_matrix.zip s.auxiliary
  let ra := fkineAux ignore_locks setpoint pairs (q.drop n) r0.1
  (ra.1, { s with fixed := r0.2,
                  auxiliary := ra.2 ++ s.auxiliary.drop pairs.length })

/-- Update `set_point` link-wise from a value list, `zip`-style. -/
def setLinksSetPoints {G : Type} : List (Link G) → List ℚ → List (Link G)
  | [], _ => []
  | ls, [] => ls
  | l :: ls, v :: vs => { l with set_point := v } :: setLinksSetPoints ls vs

/-- Distribute set-point writes over a list of chains, each chain taking
the next slice of the value list. -/
def setAuxSetPoints {G : Type} :
    List (SerialManipulator G) → List ℚ → List (SerialManipulator G)
  | [], _ => []
  | p :: ps, q =>
      { p with links := setLinksSetPoints p.links (q.take p.links.length) }
        :: setAuxSetPoints ps (q.drop p.links.length)

/-- Embedded from the `PositioningStack.set_points` setter: write each
value of `q` into the `set_point` of the corresponding link of
`self.links` (fixed chain first, then auxiliary chains in attach order),
`zip`-style, touching nothing else. -/
def setSetPoints (s : PositioningStack G) (q : List ℚ) : PositioningStack G :=
  { s with
      fixed := { s.fixed with
                   links := setLinksSetPoints s.fixed.links (q.take s.fixed.links.length) },
      auxiliary := setAuxSetPoints s.auxiliary (q.drop s.fixed.links.length) }

/-- Embedded from the `PositioningStack.set_points` getter. -/
def getSetPoints (s : PositioningStack G) : List ℚ :=
  s.fixed.set_points ++ (s.auxiliary.flatMap SerialManipulator.set_points)

end PositioningStack

/-- The auxiliary chain at `idx` with its base transform replaced, as
`changeBaseMatrix` produces it before recomputing the downstream
calibration transform. -/
def PositioningStack.rebasedChain {G : Type} [Group G] (s : PositioningStack G)
    (idx : Nat) (M : G) : SerialManipulator G :=
  { s.auxiliary.getD idx ⟨1, []⟩ with base := M }

/-- Lookup in an association list by key, mirroring a Python dict access
(`name in positioners` / `positioners[name]`; keys are unique). -/
def assoc {α : Type} : List (String × α) → String → Option α
  | [], _ => none
  | kv :: rest, name => if kv.1 = name then some kv.2 else assoc rest name

/-- Embedded from the `Instrument` attributes used by `getPositioner` and
`q_vectors`: the current positioning stack and the named positioners. -/
structure Instrument (G : Type) where
  positioning_stack : PositioningStack G
  positioners : List (String × SerialManipulator G)

/-- Embedded from `Instrument.getPositioner`: the current stack when the
name matches the stack's name, else the named positioner, else a
`ValueError`.  The returned instrument component witnesses that the
instrument's state is untouched. -/
def Instrument.getPositioner {G : Type} (inst : Instrument G) (name : String) :
    Except String (SerialManipulator G ⊕ PositioningStack G) × Instrument G :=
  if name = inst.positioning_stack.name then
    (Except.ok (Sum.inr inst.positioning_stack), inst)
  else
    match assoc inst.positioners name with
    | some p => (Except.ok (Sum.inl p), inst)
    | none => (Except.error ("\"" ++ name ++ "\" Positioner could not be found."), inst)

/-- Cartesian 3-vector over the rationals, standing in for `Vector3`. -/
structure Vec3 where
  x : ℚ
  y : ℚ
  z : ℚ
deriving DecidableEq

/-- Componentwise negation of a 3-vector. -/
def Vec3.neg (v : Vec3) : Vec3 := ⟨-v.x, -v.y, -v.z⟩

/-- Componentwise sum of two 3-vectors. -/
def Vec3.add (a b : Vec3) : Vec3 := ⟨a.x + b.x, a.y + b.y, a.z + b.z⟩

/-- Squared Euclidean length of a 3-vector.  The source compares
`vector.length > 0.0001`; since both sides are non-negative this is
equivalent to comparing the squares, which keeps the embedding inside ℚ. -/
def Vec3.lengthSq (v : Vec3) : ℚ := v.x ^ 2 + v.y ^ 2 + v.z ^ 2

/-- The source's length threshold `0.0001`, squared. -/
def qTolSq : ℚ := ((1 : ℚ) / 10000) ^ 2

/-- Embedded from `Instrument.q_vectors`: for each detector in order, the
negated jaw beam direction plus the detector's diffracted beam,
normalized only when its length exceeds `0.0001`.  `nrm` abstracts
`Vector3.normalized` (defined outside the sources at hand; it divides the
vector by its Euclidean length, which is irrational in general). -/
def q_vectors (beam_direction : Vec3) (detectors : List Vec3) (nrm : Vec3 → Vec3) : List Vec3 :=
  detectors.map fun diffracted_beam =>
    let vector := beam_direction.neg.add diffracted_beam
    if vector.lengthSq > qTolSq then nrm vector else vector

/-- Modelled from the spec: the solver's status values (§4.3): converged
within both tolerances, or failed — "there is no distinct timeout status
from failed to converge". -/
inductive IKStatus where
  | Converged : IKStatus
  | Failed : IKStatus
deriving DecidableEq

/-- Modelled from the spec: the solver output record (§3 "IKResult"). -/
structure IKResult where
  joint_values : List ℚ
  status : IKStatus
  position_error : Vec3
  orientation_error : Vec3
  position_converged : Bool
  orientation_converged : Bool

/-- Modelled from the spec: the solver's termination check (§4.3): the
position error norm and the orientation error angle are compared against
the two tolerance components `tol = (orientationTol, positionTol)`;
`status = Converged` only if both are within tolerance, otherwise
`Failed`.  Norm comparisons are embedded squared, as in `Vec3.lengthSq`. -/
def mkIKResult (q : List ℚ) (pos_err orient_err : Vec3) (tol : ℚ × ℚ) : IKResult :=
  let oc : Bool := decide (orient_err.lengthSq ≤ tol.1 ^ 2)
  let pc : Bool := decide (pos_err.lengthSq ≤ tol.2 ^ 2)
  { joint_values := q
    status := if pc && oc then IKStatus.Converged else IKStatus.Failed
    position_error := pos_err
    orientation_error := orient_err
    position_converged := pc
    orientation_converged := oc }

/-- UI effects of `MainWindowPresenter.runSimulation`, in emission order. -/
inductive UIEvent where
  | showMessage : String → UIEvent
  | showSimulationResults : UIEvent
  | simulationCreated : UIEvent
  | simulationStarted : UIEvent
deriving DecidableEq

/-- Modelled from the spec: the simulation object the presenter creates
(§4.4): option flags, a running flag, and the append-only per-target
results it publishes (empty on creation, before `start`). -/
structure Simulation where
  compute_path_length : Bool
  render_graphics : Bool
  check_limits : Bool
  running : Bool
  results : List IKResult
deriving Inhabited

/-- Modelled from the spec: `createSimulation` builds a fresh, not yet
running simulation with no published results. -/
def createSimulation (cpl rg cl : Bool) : Simulation :=
  { compute_path_length := cpl, render_graphics := rg, check_limits := cl,
    running := false, results := [] }

/-- State of the presenter and its model as far as `runSimulation` reads
and writes it: the alignment matrix (present or not), the number of
measurement points, the current simulation (if any), and the three
view-side option toggles. -/
structure PresenterState where
  alignment : Option Unit
  measurement_points_size : Nat
  simulation : Option Simulation
  compute_path_length_checked : Bool
  show_sim_graphics_checked : Bool
  check_limits_checked : Bool

/-- Embedded from `MainWindowPresenter.runSimulation`
(`sscanss/ui/windows/main/presenter.py`): bail out with a message when no
alignment is set or no measurement points exist; otherwise show the
results dock, and unless a previous simulation is still running, create a
new simulation from the view toggles and start it. -/
def runSimulation (st : PresenterState) : PresenterState × List UIEvent :=
  match st.alignment with
  | none => (st, [UIEvent.showMessage "Sample must be aligned on the instrument for Simulation"])
  | some _ =>
    if st.measurement_points_size = 0 then
      (st, [UIEvent.showMessage "Measurement points should be added before Simulation"])
    else if (st.simulation.map Simulation.running).getD false then
      (st, [UIEvent.showSimulationResults])
    else
      let sim := createSimulation st.compute_path_length_checked
        st.show_sim_graphics_checked st.check_limits_checked
      ({ st with simulation := some { sim with running := true } },
       [UIEvent.showSimulationResults, UIEvent.simulationCreated, UIEvent.simulationStarted])

/-- A link whose limits admit the resting value 0 (or that ignores its
limits), so that clamping at rest is the identity. -/
def Link.restOK {G : Type} (l : Link G) : Prop :=
  l.ignore_limits = true ∨ (l.lower_limit ≤ 0 ∧ 0 ≤ l.upper_limit)

instance {G : Type} (l : Link G) : Decidable l.restOK := by
  unfold Link.restOK; infer_instance

/-- A link at the resting configuration with limits admitting it. -/
def Link.atRest0 {G : Type} (l : Link G) : Prop :=
  l.current_value = 0 ∧ l.set_point = 0 ∧ l.restOK

instance {G : Type} (l : Link G) : Decidable l.atRest0 := by
  unfold Link.atRest0; infer_instance

/-! ### Concrete instances used by witnesses and counterexamples

The transform group is `Multiplicative ℤ`; a joint transform takes a
rational value to the transform indexed by its numerator. -/

/-- Joint transform used in the concrete examples. -/
def egJoint : ℚ → Multiplicative ℤ := fun v => Multiplicative.ofAdd v.num

/-- A revolute-style example link with limits `[-10, 10]`. -/
def egLink (cur sp : ℚ) : Link (Multiplicative ℤ) :=
  { offsetT := Multiplicative.ofAdd 1, joint := egJoint, lower_limit := -10,
    upper_limit := 10, locked := false, ignore_limits := false,
    current_value := cur, set_point := sp }

/-- Example fixed chain: base transform `ofAdd 2`, no links. -/
def egChainF : SerialManipulator (Multiplicative ℤ) := ⟨Multiplicative.ofAdd 2, []⟩

/-- Example auxiliary chain: base transform `ofAdd 3` and one link. -/
def egChainA : SerialManipulator (Multiplicative ℤ) :=
  ⟨Multiplicative.ofAdd 3, [egLink 2 2]⟩

/-- Example chain with base transform `ofAdd 5` and no links, whose
resting pose differs from `egChainF`'s. -/
def cxAux : SerialManipulator (Multiplicative ℤ) := ⟨Multiplicative.ofAdd 5, []⟩

/-- Example one-auxiliary stack (fields given directly). -/
def egStack1 : PositioningStack (Multiplicative ℤ) :=
  { name := "s", fixed := egChainF, tool_link := Multiplicative.ofAdd (-2),
    auxiliary := [egChainA], link_matrix := [Multiplicative.ofAdd (-2)] }

/-- Default link used with `List.getD` on link lists. -/
def dLink {G : Type} [Group G] : Link G :=
  { offsetT := 1, joint := fun _ => 1, lower_limit := 0, upper_limit := 0,
    locked := false, ignore_limits := false, current_value := 0, set_point := 0 }

/-- Example two-auxiliary stack. -/
def egStack2 : PositioningStack (Multiplicative ℤ) :=
  { name := "s2", fixed := egChainF, tool_link := 1,
    auxiliary := [egChainA, cxAux],
    link_matrix := [Multiplicative.ofAdd (-2), 1] }

/-- Example instrument: current stack `egStack1` (named "s") and one
named positioner. -/
def egInstrument : Instrument (Multiplicative ℤ) :=
  { positioning_stack := egStack1, positioners := [("p1", egChainA)] }

/-- Example jaw beam direction. -/
def egBeam : Vec3 := ⟨1, 0, 0⟩

/-- Example diffracted beams: the first cancels the beam axis exactly
(zero q-vector), the second does not. -/
def egDetectors : List Vec3 := [⟨1, 0, 0⟩, ⟨3, 4, 0⟩]

/-- Example stand-in for the abstract normalization function. -/
def egNrm : Vec3 → Vec3 := fun v => v

/-- Example running simulation. -/
def egSimRunning : Simulation :=
  { compute_path_length := false, render_graphics := false, check_limits := false,
    running := true, results := [] }

/-- Presenter state with no alignment matrix. -/
def stNoAlign : PresenterState :=
  { alignment := none, measurement_points_size := 3, simulation := none,
    compute_path_length_checked := false, show_sim_graphics_checked := false,
    check_limits_checked := false }

/-- Presenter state with an alignment but no measurement points. -/
def stNoPoints : PresenterState :=
  { alignment := some (), measurement_points_size := 0, simulation := none,
    compute_path_length_checked := false, show_sim_graphics_checked := false,
    check_limits_checked := false }

/-- Presenter state with a simulation still running. -/
def stRunning : PresenterState :=
  { alignment := some (), measurement_points_size := 3,
    simulation := some egSimRunning,
    compute_path_length_checked := false, show_sim_graphics_checked := false,
    check_limits_checked := false }

/-! ### Helper lemmas -/

/-- Folding multiplication over a list from a seed is the seed times the
product of the images. -/
lemma foldl_mul_prod {G : Type} [Monoid G] {α : Type} (f : α → G) :
    ∀ (l : List α) (A : G), l.foldl (fun T a => T * f a) A = A * (l.map f).prod
  | [], A => by simp
  | a :: t, A => by
      simp only [List.foldl_cons, List.map_cons, List.prod_cons]
      rw [foldl_mul_prod f t (A * f a), mul_assoc]

/-- Mapping over the zip of two equal-length lists is mapping over their
common index range. -/
lemma zip_map_eq_range {α β γ : Type} (d1 : α) (d2 : β) (f : α × β → γ) :
    ∀ (l1 : List α) (l2 : List β), l1.length = l2.length →
      (l1.zip l2).map f = (List.range l2.length).map fun i => f (l1.getD i d1, l2.getD i d2)
  | [], l2, h => by
      have : l2 = [] := List.length_eq_zero.mp h.symm
      subst this; rfl
  | a :: t1, [], h => by simp at h
  | a :: t1, b :: t2, h => by
      have ht : t1.length = t2.length := by simpa using h
      simp only [List.zip_cons_cons, List.map_cons, List.length_cons,
        List.range_succ_eq_map, List.map_map]
      refine congrArg₂ List.cons rfl ?_
      rw [zip_map_eq_range d1 d2 f t1 t2 ht]
      refine List.map_congr_left fun i _ => ?_
      simp [Function.comp]

/-- Moving a resting link (with admissible limits) to its own set-point 0
with locks ignored leaves it unchanged. -/
lemma Link.moveTo_self {G : Type} (l : Link G) (h : l.atRest0) :
    l.moveTo l.set_point true true = l := by
  obtain ⟨hc, hs, hr⟩ := h
  cases l with
  | mk offsetT joint lo hi locked il cur sp =>
    simp only [Link.moveTo]
    simp only at hc hs
    subst hc hs
    rcases hr with h1 | ⟨h2, h3⟩
    · simp only at h1
      simp [h1]
    · simp only at h2 h3
      simp [clamp, max_eq_left h2, min_eq_left h3]

/-- Running `moveLinks` on resting links over their own set-points with
locks ignored is the identity. -/
lemma moveLinks_self {G : Type} :
    ∀ (ls : List (Link G)), (∀ l ∈ ls, l.atRest0) →
      SerialManipulator.moveLinks ls (ls.map (·.set_point)) true true = ls
  | [], _ => rfl
  | l :: ls, h => by
      simp only [List.map_cons, SerialManipulator.moveLinks]
      rw [Link.moveTo_self l (h l (List.mem_cons_self l ls)),
        moveLinks_self ls fun x hx => h x (List.mem_cons_of_mem l hx)]

/-- The map `resetOffsets` is the identity on a chain already at rest. -/
lemma resetOffsets_of_rest {G : Type} (m : SerialManipulator G)
    (h : ∀ l ∈ m.links, l.current_value = 0) :
    m.resetOffsets = m := by
  cases m with
  | mk base links =>
    simp only [SerialManipulator.resetOffsets]
    congr 1
    induction links with
    | nil => rfl
    | cons l ls ih =>
      simp only [List.map_cons]
      have hl : l.current_value = 0 := h l (List.mem_cons_self l ls)
      have : ({ l with current_value := 0 } : Link G) = l := by
        cases l; simp only at hl; simp [hl]
      rw [this, ih fun x hx => h x (List.mem_cons_of_mem l hx)]

/-- Applying `defaultPoseInverse` to a chain at rest (with admissible limits)
captures the inverse of its pose and leaves the chain as it was. -/
lemma defaultPoseInverse_of_rest {G : Type} [Group G] (m : SerialManipulator G)
    (h : ∀ l ∈ m.links, l.atRest0) :
    PositioningStack.defaultPoseInverse m = (m.pose⁻¹, m) := by
  have hro : m.resetOffsets = m :=
    resetOffsets_of_rest m fun l hl => (h l hl).1
  simp only [PositioningStack.defaultPoseInverse, SerialManipulator.fkine, hro,
    SerialManipulator.set_points]
  rw [moveLinks_self m.links h]

/-- A chain's `reset` leaves every link at rest; with admissible limits this gives
`atRest0` for all of them. -/
lemma reset_links_atRest0 {G : Type} (m : SerialManipulator G)
    (h : ∀ l ∈ m.links, l.restOK) :
    ∀ l ∈ m.reset.links, l.atRest0 := by
  intro l hl
  simp only [SerialManipulator.reset, List.mem_map] at hl
  obtain ⟨l0, hl0, rfl⟩ := hl
  refine ⟨rfl, rfl, ?_⟩
  have := h l0 hl0
  cases l0
  simpa [Link.restOK] using this

/-- The chain transform returned by `fkine` is the pose of the updated
chain. -/
lemma fkine_fst_eq_pose {G : Type} [Group G] (m : SerialManipulator G)
    (q : List ℚ) (il sp : Bool) :
    (m.fkine q il sp).1 = (m.fkine q il sp).2.pose := rfl

/-- The list of updated chains produced by `fkineAux` has one entry per
processed pair. -/
lemma fkineAux_snd_length {G : Type} [Group G] (il sp : Bool) :
    ∀ (pairs : List (G × SerialManipulator G)) (q : List ℚ) (T : G),
      (PositioningStack.fkineAux il sp pairs q T).2.length = pairs.length
  | [], _, _ => rfl
  | _ :: rest, q, T => by
      simp only [PositioningStack.fkineAux, List.length_cons]
      rw [fkineAux_snd_length il sp rest]

/-- Entry `i` of the chains updated by `fkineAux` over zipped calibration
transforms and chains is chain `i` run on its slice of the joint vector:
the values after those consumed by the chains before it, truncated to its
own link count. -/
lemma fkineAux_zip_getD {G : Type} [Group G] (il sp : Bool)
    (d : SerialManipulator G) :
    ∀ (lm : List G) (aux : List (SerialManipulator G)) (q : List ℚ) (T : G),
      lm.length = aux.length → ∀ i, i < aux.length →
      (PositioningStack.fkineAux il sp (lm.zip aux) q T).2.getD i d =
        ((aux.getD i d).fkine
          ((q.drop ((aux.take i).map SerialManipulator.numberOfLinks).sum).take
            (aux.getD i d).numberOfLinks) il sp).2
  | [], aux, q, T, h, i, hi => by
      have : aux = [] := List.length_eq_zero.mp h.symm
      subst this; simp at hi
  | l :: lm, [], q, T, h, i, hi => by simp at hi
  | l :: lm, p :: aux, q, T, h, i, hi => by
      have hlen : lm.length = aux.length := by simpa using h
      cases i with
      | zero => simp [PositioningStack.fkineAux]
      | succ i =>
          have hi' : i < aux.length := by simpa using hi
          simp only [List.zip_cons_cons, PositioningStack.fkineAux, List.getD_cons_succ,
            List.take_succ_cons, List.map_cons, List.sum_cons]
          rw [← List.zip_eq_zipWith]
          rw [fkineAux_zip_getD il sp d lm aux _ _ hlen i hi']
          rw [List.drop_drop]

/-- The transform returned by `fkineAux` over zipped calibration
transforms and chains folds the seed with, for each chain in order, its
calibration transform times the transform its forward kinematics returns
on its slice of the joint vector. -/
lemma fkineAux_zip_fst {G : Type} [Group G] (il sp : Bool)
    (d : SerialManipulator G) :
    ∀ (lm : List G) (aux : List (SerialManipulator G)) (q : List ℚ) (T : G),
      lm.length = aux.length →
      (PositioningStack.fkineAux il sp (lm.zip aux) q T).1 =
        T * ((List.range aux.length).map fun i =>
          lm.getD i 1 * ((aux.getD i d).fkine
            ((q.drop ((aux.take i).map SerialManipulator.numberOfLinks).sum).take
              (aux.getD i d).numberOfLinks) il sp).1).prod
  | [], aux, q, T, h => by
      have : aux = [] := List.length_eq_zero.mp h.symm
      subst this; simp [PositioningStack.fkineAux]
  | l :: lm, [], q, T, h => by simp at h
  | l :: lm, p :: aux, q, T, h => by
      have hlen : lm.length = aux.length := by simpa using h
      simp only [List.zip_cons_cons, PositioningStack.fkineAux]
      rw [← List.zip_eq_zipWith]
      rw [fkineAux_zip_fst il sp d lm aux (q.drop p.numberOfLinks)
        (T * (l * (p.fkine (q.take p.numberOfLinks) il sp).1)) hlen]
      simp only [List.length_cons, List.range_succ_eq_map, List.map_cons, List.map_map,
        List.prod_cons, List.getD_cons_zero, List.take_zero, List.map_nil, List.sum_nil,
        List.drop_zero]
      rw [mul_assoc]
      refine congrArg
        (fun z => T * (l * (p.fkine (List.take p.numberOfLinks q) il sp).1 * z)) ?_
      refine congrArg List.prod (List.map_congr_left fun i _ => ?_)
      simp only [Function.comp, List.getD_cons_succ, List.take_succ_cons, List.map_cons,
        List.sum_cons, List.drop_drop]

/-- Applying `setLinksSetPoints` with no values is the identity. -/
lemma setLinksSetPoints_nil {G : Type} (ls : List (Link G)) :
    PositioningStack.setLinksSetPoints ls [] = ls := by
  cases ls <;> rfl

/-- The map `setLinksSetPoints` keeps the number of links. -/
lemma setLinksSetPoints_length {G : Type} :
    ∀ (ls : List (Link G)) (q : List ℚ),
      (PositioningStack.setLinksSetPoints ls q).length = ls.length
  | [], _ => by simp [PositioningStack.setLinksSetPoints]
  | _ :: _, [] => by simp [setLinksSetPoints_nil]
  | l :: ls, v :: vs => by
      simp only [PositioningStack.setLinksSetPoints, List.length_cons]
      rw [setLinksSetPoints_length ls vs]

/-- The map `setLinksSetPoints` distributes over list append, the second part
taking the values left over by the first. -/
lemma setLinksSetPoints_append {G : Type} :
    ∀ (l1 l2 : List (Link G)) (q : List ℚ),
      PositioningStack.setLinksSetPoints (l1 ++ l2) q
        = PositioningStack.setLinksSetPoints l1 (q.take l1.length)
            ++ PositioningStack.setLinksSetPoints l2 (q.drop l1.length)
  | [], l2, q => by simp [PositioningStack.setLinksSetPoints]
  | a :: t, l2, [] => by simp [setLinksSetPoints_nil]
  | a :: t, l2, v :: vs => by
      simp only [List.cons_append, PositioningStack.setLinksSetPoints, List.length_cons,
        List.take_succ_cons, List.drop_succ_cons, List.append_eq]
      rw [setLinksSetPoints_append t l2 vs]

/-- Per-chain set-point slicing flattens to set-point writing on the
concatenated link list. -/
lemma setAuxSetPoints_flatMap {G : Type} :
    ∀ (ms : List (SerialManipulator G)) (q : List ℚ),
      (PositioningStack.setAuxSetPoints ms q).flatMap SerialManipulator.links
        = PositioningStack.setLinksSetPoints (ms.flatMap SerialManipulator.links) q
  | [], q => by simp [PositioningStack.setAuxSetPoints, PositioningStack.setLinksSetPoints]
  | p :: ps, q => by
      simp only [PositioningStack.setAuxSetPoints, List.flatMap_cons]
      rw [setAuxSetPoints_flatMap ps (q.drop p.links.length)]
      rw [setLinksSetPoints_append p.links (ps.flatMap SerialManipulator.links) q]

/-- The map `setAuxSetPoints` keeps the number of chains. -/
lemma setAuxSetPoints_length {G : Type} :
    ∀ (ms : List (SerialManipulator G)) (q : List ℚ),
      (PositioningStack.setAuxSetPoints ms q).length = ms.length
  | [], _ => rfl
  | p :: ps, q => by
      simp only [PositioningStack.setAuxSetPoints, List.length_cons]
      rw [setAuxSetPoints_length ps]

/-- Writing set-points does not change any link's local transform. -/
lemma map_localT_setLinksSetPoints {G : Type} [Group G] :
    ∀ (ls : List (Link G)) (q : List ℚ),
      (PositioningStack.setLinksSetPoints ls q).map Link.localT = ls.map Link.localT
  | [], _ => by simp [PositioningStack.setLinksSetPoints]
  | _ :: _, [] => by simp [setLinksSetPoints_nil]
  | l :: ls, v :: vs => by
      simp only [PositioningStack.setLinksSetPoints, List.map_cons]
      rw [map_localT_setLinksSetPoints ls vs]
      rfl

/-- Writing set-points into a chain's links does not change its pose. -/
lemma pose_setLinksSetPoints {G : Type} [Group G] (p : SerialManipulator G) (q : List ℚ) :
    SerialManipulator.pose
        { p with links := PositioningStack.setLinksSetPoints p.links q }
      = p.pose := by
  unfold SerialManipulator.pose
  rw [foldl_mul_prod, foldl_mul_prod, map_localT_setLinksSetPoints]

/-- Folding stack poses over chains with rewritten set-points equals the
fold over the original chains. -/
lemma zip_fold_pose_setAux {G : Type} [Group G] :
    ∀ (lm : List G) (ms : List (SerialManipulator G)) (q : List ℚ) (T : G),
      (lm.zip (PositioningStack.setAuxSetPoints ms q)).foldl
          (fun T lp => T * (lp.1 * lp.2.pose)) T
        = (lm.zip ms).foldl (fun T lp => T * (lp.1 * lp.2.pose)) T
  | [], _, _, _ => rfl
  | _ :: _, [], _, _ => rfl
  | l :: lm, p :: ps, q, T => by
      simp only [PositioningStack.setAuxSetPoints, List.zip_cons_cons, List.foldl_cons]
      rw [zip_fold_pose_setAux lm ps (q.drop p.links.length)]
      rw [pose_setLinksSetPoints]

/-- Entry `i` of `setLinksSetPoints` is the original link with its
`set_point` replaced by value `i`, when both lists reach index `i`. -/
lemma setLinksSetPoints_getD {G : Type} :
    ∀ (ls : List (Link G)) (q : List ℚ) (i : Nat) (d : Link G),
      i < ls.length → i < q.length →
      (PositioningStack.setLinksSetPoints ls q).getD i d
        = { ls.getD i d with set_point := q.getD i 0 }
  | [], _, i, _, hi, _ => by simp at hi
  | _ :: _, [], i, _, _, hq => by simp at hq
  | l :: ls, v :: vs, 0, d, _, _ => rfl
  | l :: ls, v :: vs, i + 1, d, hi, hq => by
      simp only [PositioningStack.setLinksSetPoints, List.getD_cons_succ]
      exact setLinksSetPoints_getD ls vs i d (by simpa using hi) (by simpa using hq)

/-- The stack's link count is the length of its concatenated link list. -/
lemma numberOfLinks_eq_links_length {G : Type} [Group G] (s : PositioningStack G) :
    s.numberOfLinks = s.links.length := by
  unfold PositioningStack.numberOfLinks PositioningStack.links
  rw [List.length_append, List.length_flatMap]
  rfl

/-- The stack set-point setter rewrites exactly the concatenated link
list, `zip`-style. -/
lemma stack_setSetPoints_links {G : Type} [Group G] (s : PositioningStack G) (q : List ℚ) :
    (s.setSetPoints q).links = PositioningStack.setLinksSetPoints s.links q := by
  unfold PositioningStack.setSetPoints PositioningStack.links
  simp only []
  rw [setAuxSetPoints_flatMap]
  rw [setLinksSetPoints_append]

/-! ### Claims -/

/-- C1: for every positioning stack whose `link_matrix` and `auxiliary`
lists have equal length, the stack's `pose` is the fixed chain's pose
composed on the right with `link_matrix[i] * auxiliary[i].pose` for each
auxiliary chain `i` in attach order, and `tool_pose` is `pose` composed
with `tool_link`. -/
theorem stack_pose_composition {G : Type} [Group G] (s : PositioningStack G)
    (h : s.link_matrix.length = s.auxiliary.length) :
    s.pose = s.fixed.pose *
      ((List.range s.auxiliary.length).map fun i =>
        s.link_matrix.getD i 1 * (s.auxiliary.getD i ⟨1, []⟩).pose).prod
    ∧ s.tool_pose = s.pose * s.tool_link := by
  constructor
  · unfold PositioningStack.pose
    rw [foldl_mul_prod]
    rw [zip_map_eq_range 1 (⟨1, []⟩ : SerialManipulator G)
      (fun lp => lp.1 * lp.2.pose) s.link_matrix s.auxiliary h]
  · rfl

/-- C1 witness: the composition law evaluated on a concrete one-auxiliary
stack over `Multiplicative ℤ`. -/
theorem stack_pose_composition_witness :
    egStack1.link_matrix.length = egStack1.auxiliary.length ∧
    (egStack1.pose = egStack1.fixed.pose *
      ((List.range egStack1.auxiliary.length).map fun i =>
        egStack1.link_matrix.getD i 1 * (egStack1.auxiliary.getD i ⟨1, []⟩).pose).prod
    ∧ egStack1.tool_pose = egStack1.pose * egStack1.tool_link) :=
  ⟨rfl, stack_pose_composition egStack1 rfl⟩

/-- Attaching a positioner to a freshly built stack evaluates to the
record with the new chain reset, `tool_link` the inverse of its resting
pose, and the single calibration transform the inverse of the fixed
chain's resting pose. -/
lemma addPositioner_init_eval {G : Type} [Group G] (name : String)
    (F p : SerialManipulator G) (hF : ∀ l ∈ F.links, l.restOK) :
    (PositioningStack.init name F).addPositioner p =
      { name := name, fixed := F.reset, tool_link := p.reset.pose⁻¹,
        auxiliary := [p.reset], link_matrix := [F.reset.pose⁻¹] } := by
  simp only [PositioningStack.init, PositioningStack.addPositioner, List.getLast?]
  rw [defaultPoseInverse_of_rest F.reset (reset_links_atRest0 F hF)]
  simp

/-- C2 counterexample: a freshly built stack (every chain at rest) whose
fixed chain and attached chain have different resting poses; after
`addPositioner` the stack's pose is not the fixed chain's pose. -/
theorem attach_rest_pose_counterexample :
    (∀ l ∈ (PositioningStack.init "s" egChainF).links,
        l.current_value = 0 ∧ l.set_point = 0) ∧
    ¬ (((PositioningStack.init "s" egChainF).addPositioner cxAux).pose =
       ((PositioningStack.init "s" egChainF).addPositioner cxAux).fixed.pose) := by
  constructor
  · intro l hl
    simp [PositioningStack.links, PositioningStack.init, SerialManipulator.reset,
      egChainF] at hl
  · decide

/-- C2 (amended): after `addPositioner p` on a freshly built stack whose
fixed chain's limits admit the resting configuration, the calibration
transform cancels the fixed chain's resting-pose contribution and
`tool_link` cancels the new chain's: the stack's pose equals the attached
chain's resting pose, and the stack's `tool_pose` is the identity (it
equals the fixed chain's pose only when the two resting poses agree). -/
theorem attach_rest_calibration {G : Type} [Group G] (name : String)
    (F p : SerialManipulator G) (hF : ∀ l ∈ F.links, l.restOK) :
    ((PositioningStack.init name F).addPositioner p).pose = p.reset.pose ∧
    ((PositioningStack.init name F).addPositioner p).tool_pose = 1 := by
  rw [PositioningStack.tool_pose, addPositioner_init_eval name F p hF]
  simp [PositioningStack.pose]

/-- C3: for a joint vector covering the whole stack, `fkine` updates the
fixed chain with the first slice of `q` and each auxiliary chain `i` with
the next slice (sized by its link count, in attach order), and the
returned transform folds the fixed chain's result left-to-right with each
calibration transform followed by the corresponding auxiliary result —
which is exactly the stack pose invariant evaluated at the new
configuration. -/
theorem stack_fkine_partition {G : Type} [Group G] (s : PositioningStack G)
    (q : List ℚ) (il sp : Bool)
    (hlen : s.link_matrix.length = s.auxiliary.length)
    (hq : q.length = s.numberOfLinks) :
    (s.fkine q il sp).2.fixed = (s.fixed.fkine (q.take s.fixed.numberOfLinks) il sp).2 ∧
    (s.fkine q il sp).2.auxiliary.length = s.auxiliary.length ∧
    (∀ i, i < s.auxiliary.length →
      (s.fkine q il sp).2.auxiliary.getD i ⟨1, []⟩ =
        ((s.auxiliary.getD i ⟨1, []⟩).fkine
          (((q.drop s.fixed.numberOfLinks).drop
              ((s.auxiliary.take i).map SerialManipulator.numberOfLinks).sum).take
            (s.auxiliary.getD i ⟨1, []⟩).numberOfLinks) il sp).2) ∧
    (s.fkine q il sp).1 =
      (s.fixed.fkine (q.take s.fixed.numberOfLinks) il sp).1 *
        ((List.range s.auxiliary.length).map fun i =>
          s.link_matrix.getD i 1 *
            ((s.auxiliary.getD i ⟨1, []⟩).fkine
              (((q.drop s.fixed.numberOfLinks).drop
                  ((s.auxiliary.take i).map SerialManipulator.numberOfLinks).sum).take
                (s.auxiliary.getD i ⟨1, []⟩).numberOfLinks) il sp).1).prod ∧
    (s.fkine q il sp).1 = (s.fkine q il sp).2.pose := by
  have hpl : (s.link_matrix.zip s.auxiliary).length = s.auxiliary.length := by
    simp [List.length_zip, hlen]
  have hfk : s.fkine q il sp =
      ((PositioningStack.fkineAux il sp (s.link_matrix.zip s.auxiliary)
          (q.drop s.fixed.numberOfLinks)
          ((s.fixed.fkine (q.take s.fixed.numberOfLinks) il sp).1)).1,
       { s with fixed := (s.fixed.fkine (q.take s.fixed.numberOfLinks) il sp).2,
                auxiliary := (PositioningStack.fkineAux il sp
                  (s.link_matrix.zip s.auxiliary) (q.drop s.fixed.numberOfLinks)
                  ((s.fixed.fkine (q.take s.fixed.numberOfLinks) il sp).1)).2 }) := by
    simp only [PositioningStack.fkine, hpl, List.drop_length, List.append_nil]
  have hlenra : (PositioningStack.fkineAux il sp (s.link_matrix.zip s.auxiliary)
      (q.drop s.fixed.numberOfLinks)
      ((s.fixed.fkine (q.take s.fixed.numberOfLinks) il sp).1)).2.length
      = s.auxiliary.length := by
    rw [fkineAux_snd_length]; exact hpl
  refine ⟨by rw [hfk], by rw [hfk]; exact hlenra, ?_, ?_, ?_⟩
  · intro i hi
    rw [hfk]
    exact fkineAux_zip_getD il sp ⟨1, []⟩ s.link_matrix s.auxiliary _ _ hlen i hi
  · rw [hfk]
    exact fkineAux_zip_fst il sp ⟨1, []⟩ s.link_matrix s.auxiliary _ _ hlen
  · rw [hfk]
    show (PositioningStack.fkineAux il sp (s.link_matrix.zip s.auxiliary)
        (q.drop s.fixed.numberOfLinks)
        ((s.fixed.fkine (q.take s.fixed.numberOfLinks) il sp).1)).1 =
      (s.link_matrix.zip (PositioningStack.fkineAux il sp (s.link_matrix.zip s.auxiliary)
          (q.drop s.fixed.numberOfLinks)
          ((s.fixed.fkine (q.take s.fixed.numberOfLinks) il sp).1)).2).foldl
        (fun T lp => T * (lp.1 * lp.2.pose))
        ((s.fixed.fkine (q.take s.fixed.numberOfLinks) il sp).2.pose)
    rw [foldl_mul_prod]
    rw [zip_map_eq_range 1 (⟨1, []⟩ : SerialManipulator G)
      (fun lp => lp.1 * lp.2.pose) s.link_matrix _ (hlen.trans hlenra.symm)]
    rw [fkineAux_zip_fst il sp ⟨1, []⟩ s.link_matrix s.auxiliary _ _ hlen]
    rw [hlenra]
    refine congrArg₂ (fun a b : G => a * b) rfl ?_
    refine congrArg List.prod (List.map_congr_left fun i hi => ?_)
    have hi' : i < s.auxiliary.length := List.mem_range.mp hi
    rw [fkineAux_zip_getD il sp ⟨1, []⟩ s.link_matrix s.auxiliary _ _ hlen i hi']
    rfl

/-- C3 witness: the partition and folding law evaluated on a concrete
stack and joint vector. -/
theorem stack_fkine_partition_witness :
    egStack1.link_matrix.length = egStack1.auxiliary.length ∧
    ([(3 : ℚ)].length = egStack1.numberOfLinks) ∧
    ((egStack1.fkine [3] false true).2.fixed
        = (egStack1.fixed.fkine ([(3 : ℚ)].take egStack1.fixed.numberOfLinks) false true).2 ∧
      (egStack1.fkine [3] false true).2.auxiliary.length = egStack1.auxiliary.length ∧
      (∀ i, i < egStack1.auxiliary.length →
        (egStack1.fkine [3] false true).2.auxiliary.getD i ⟨1, []⟩ =
          ((egStack1.auxiliary.getD i ⟨1, []⟩).fkine
            ((([(3 : ℚ)].drop egStack1.fixed.numberOfLinks).drop
                ((egStack1.auxiliary.take i).map SerialManipulator.numberOfLinks).sum).take
              (egStack1.auxiliary.getD i ⟨1, []⟩).numberOfLinks) false true).2) ∧
      (egStack1.fkine [3] false true).1 =
        (egStack1.fixed.fkine ([(3 : ℚ)].take egStack1.fixed.numberOfLinks) false true).1 *
          ((List.range egStack1.auxiliary.length).map fun i =>
            egStack1.link_matrix.getD i 1 *
              ((egStack1.auxiliary.getD i ⟨1, []⟩).fkine
                ((([(3 : ℚ)].drop egStack1.fixed.numberOfLinks).drop
                    ((egStack1.auxiliary.take i).map SerialManipulator.numberOfLinks).sum).take
                  (egStack1.auxiliary.getD i ⟨1, []⟩).numberOfLinks) false true).1).prod ∧
      (egStack1.fkine [3] false true).1 = (egStack1.fkine [3] false true).2.pose) :=
  ⟨rfl, rfl, stack_fkine_partition egStack1 [3] false true rfl rfl⟩

/-- C2 witness: the amended property on concrete chains. -/
theorem attach_rest_calibration_witness :
    (∀ l ∈ egChainF.links, l.restOK) ∧
    (((PositioningStack.init "s" egChainF).addPositioner egChainA).pose
        = egChainA.reset.pose ∧
     ((PositioningStack.init "s" egChainF).addPositioner egChainA).tool_pose = 1) :=
  ⟨by simp [egChainF], attach_rest_calibration "s" egChainF egChainA (by simp [egChainF])⟩

/-- C5: `changeBaseMatrix` on the auxiliary chain at `idx` writes the new
base transform into that chain, recomputes exactly the calibration
transform immediately downstream of it — `link_matrix[idx+1]`, the
inverse of the rebased chain's default (resting-offsets) pose, when the
chain is not last, or `tool_link` when it is — and leaves the fixed
chain, every other auxiliary chain, and every other calibration transform
unchanged. -/
theorem change_base_matrix_effect {G : Type} [Group G] (s : PositioningStack G)
    (idx : Nat) (M : G) (h : idx < s.auxiliary.length) :
    ((s.changeBaseMatrix idx M).auxiliary.getD idx ⟨1, []⟩).base = M ∧
    (s.changeBaseMatrix idx M).fixed = s.fixed ∧
    (∀ j, j ≠ idx →
      (s.changeBaseMatrix idx M).auxiliary.getD j ⟨1, []⟩ = s.auxiliary.getD j ⟨1, []⟩) ∧
    (idx + 1 = s.auxiliary.length →
      (s.changeBaseMatrix idx M).tool_link = ((s.rebasedChain idx M).resetOffsets).pose⁻¹ ∧
      (s.changeBaseMatrix idx M).link_matrix = s.link_matrix) ∧
    (idx + 1 ≠ s.auxiliary.length →
      (s.changeBaseMatrix idx M).link_matrix
          = s.link_matrix.set (idx + 1) (((s.rebasedChain idx M).resetOffsets).pose⁻¹) ∧
      (s.changeBaseMatrix idx M).tool_link = s.tool_link ∧
      (∀ j, j ≠ idx + 1 →
        (s.changeBaseMatrix idx M).link_matrix.getD j 1 = s.link_matrix.getD j 1)) := by
  have hsome : s.auxiliary.get? idx = some (s.auxiliary.getD idx ⟨1, []⟩) := by
    rw [List.get?_eq_getElem?, List.getElem?_eq_getElem h, List.getD_eq_getElem _ _ h]
  by_cases hlast : idx + 1 = s.auxiliary.length
  · have hr : s.changeBaseMatrix idx M =
        { name := s.name, fixed := s.fixed,
          tool_link := (PositioningStack.defaultPoseInverse (s.rebasedChain idx M)).1,
          auxiliary :=
            s.auxiliary.set idx (PositioningStack.defaultPoseInverse (s.rebasedChain idx M)).2,
          link_matrix := s.link_matrix } := by
      simp only [PositioningStack.changeBaseMatrix, hsome, if_pos hlast]
      rfl
    rw [hr]
    refine ⟨?_, rfl, ?_, fun _ => ⟨rfl, rfl⟩, fun hc => absurd hlast hc⟩
    · rw [List.getD_eq_getElem _ _ (by rw [List.length_set]; exact h)]
      rw [List.getElem_set_self]
      rfl
    · intro j hj
      rw [List.getD_eq_getElem?_getD, List.getElem?_set_ne fun hc => hj hc.symm,
        ← List.getD_eq_getElem?_getD]
  · have hr : s.changeBaseMatrix idx M =
        { name := s.name, fixed := s.fixed, tool_link := s.tool_link,
          auxiliary :=
            s.auxiliary.set idx (PositioningStack.defaultPoseInverse (s.rebasedChain idx M)).2,
          link_matrix :=
            s.link_matrix.set (idx + 1)
              (PositioningStack.defaultPoseInverse (s.rebasedChain idx M)).1 } := by
      simp only [PositioningStack.changeBaseMatrix, hsome, if_neg hlast]
      rfl
    rw [hr]
    refine ⟨?_, rfl, ?_, fun hc => absurd hc hlast, fun _ => ⟨rfl, rfl, ?_⟩⟩
    · rw [List.getD_eq_getElem _ _ (by rw [List.length_set]; exact h)]
      rw [List.getElem_set_self]
      rfl
    · intro j hj
      rw [List.getD_eq_getElem?_getD, List.getElem?_set_ne fun hc => hj hc.symm,
        ← List.getD_eq_getElem?_getD]
    · intro j hj
      rw [List.getD_eq_getElem?_getD, List.getElem?_set_ne fun hc => hj hc.symm,
        ← List.getD_eq_getElem?_getD]

/-- C5 witness: rebasing the first of two auxiliary chains on a concrete
stack. -/
theorem change_base_matrix_effect_witness :
    0 < egStack2.auxiliary.length ∧
    (((egStack2.changeBaseMatrix 0 (Multiplicative.ofAdd 7)).auxiliary.getD 0 ⟨1, []⟩).base
        = Multiplicative.ofAdd 7 ∧
    (egStack2.changeBaseMatrix 0 (Multiplicative.ofAdd 7)).fixed = egStack2.fixed ∧
    (∀ j, j ≠ 0 →
      (egStack2.changeBaseMatrix 0 (Multiplicative.ofAdd 7)).auxiliary.getD j ⟨1, []⟩
        = egStack2.auxiliary.getD j ⟨1, []⟩) ∧
    (0 + 1 = egStack2.auxiliary.length →
      (egStack2.changeBaseMatrix 0 (Multiplicative.ofAdd 7)).tool_link
          = ((egStack2.rebasedChain 0 (Multiplicative.ofAdd 7)).resetOffsets).pose⁻¹ ∧
      (egStack2.changeBaseMatrix 0 (Multiplicative.ofAdd 7)).link_matrix
          = egStack2.link_matrix) ∧
    (0 + 1 ≠ egStack2.auxiliary.length →
      (egStack2.changeBaseMatrix 0 (Multiplicative.ofAdd 7)).link_matrix
          = egStack2.link_matrix.set (0 + 1)
              (((egStack2.rebasedChain 0 (Multiplicative.ofAdd 7)).resetOffsets).pose⁻¹) ∧
      (egStack2.changeBaseMatrix 0 (Multiplicative.ofAdd 7)).tool_link
          = egStack2.tool_link ∧
      (∀ j, j ≠ 0 + 1 →
        (egStack2.changeBaseMatrix 0 (Multiplicative.ofAdd 7)).link_matrix.getD j 1
          = egStack2.link_matrix.getD j 1))) :=
  ⟨by decide, change_base_matrix_effect egStack2 0 (Multiplicative.ofAdd 7) (by decide)⟩

/-- C7: assigning a full-length configuration vector to the stack's
set-points writes `q[i]` into the `set_point` of the `i`-th link (fixed
chain first, then auxiliary chains in attach order) and mutates nothing
else: every other field of every link — in particular `current_value` —
is unchanged, and the stack's pose is unchanged. -/
theorem set_points_setter_effect {G : Type} [Group G] (s : PositioningStack G)
    (q : List ℚ) (h : q.length = s.numberOfLinks) :
    (s.setSetPoints q).links.length = s.links.length ∧
    (∀ i, i < s.links.length →
      (s.setSetPoints q).links.getD i dLink
        = { s.links.getD i dLink with set_point := q.getD i 0 }) ∧
    (∀ i, i < s.links.length →
      ((s.setSetPoints q).links.getD i dLink).current_value
        = (s.links.getD i dLink).current_value) ∧
    (s.setSetPoints q).pose = s.pose := by
  have hql : q.length = s.links.length := by
    rw [h, numberOfLinks_eq_links_length]
  refine ⟨?_, ?_, ?_, ?_⟩
  · rw [stack_setSetPoints_links, setLinksSetPoints_length]
  · intro i hi
    rw [stack_setSetPoints_links]
    exact setLinksSetPoints_getD s.links q i dLink hi (by omega)
  · intro i hi
    rw [stack_setSetPoints_links,
      setLinksSetPoints_getD s.links q i dLink hi (by omega)]
  · show (s.link_matrix.zip
        (PositioningStack.setAuxSetPoints s.auxiliary (q.drop s.fixed.links.length))).foldl
        (fun T lp => T * (lp.1 * lp.2.pose))
        (SerialManipulator.pose { s.fixed with
          links := PositioningStack.setLinksSetPoints s.fixed.links
            (q.take s.fixed.links.length) }) = s.pose
    rw [pose_setLinksSetPoints, zip_fold_pose_setAux]
    rfl

/-- C7 witness: the setter evaluated on a concrete stack and vector. -/
theorem set_points_setter_effect_witness :
    ([(5 : ℚ)].length = egStack1.numberOfLinks) ∧
    ((egStack1.setSetPoints [5]).links.length = egStack1.links.length ∧
     (∀ i, i < egStack1.links.length →
       (egStack1.setSetPoints [5]).links.getD i dLink
         = { egStack1.links.getD i dLink with set_point := [(5 : ℚ)].getD i 0 }) ∧
     (∀ i, i < egStack1.links.length →
       ((egStack1.setSetPoints [5]).links.getD i dLink).current_value
         = (egStack1.links.getD i dLink).current_value) ∧
     (egStack1.setSetPoints [5]).pose = egStack1.pose) :=
  ⟨rfl, set_points_setter_effect egStack1 [5] rfl⟩

/-- C8: `len(link_matrix) = len(auxiliary)` holds for a newly constructed
stack (both empty) and is preserved by every stack operation:
`addPositioner` appends exactly one element to each list, while
`changeBaseMatrix`, `fkine` and the set-point setter change neither
list's length. -/
theorem stack_length_invariant {G : Type} [Group G] :
    (∀ (name : String) (F : SerialManipulator G),
      (PositioningStack.init name F).link_matrix.length = 0 ∧
      (PositioningStack.init name F).auxiliary.length = 0) ∧
    (∀ (s : PositioningStack G) (p : SerialManipulator G),
      (s.addPositioner p).link_matrix.length = s.link_matrix.length + 1 ∧
      (s.addPositioner p).auxiliary.length = s.auxiliary.length + 1) ∧
    (∀ (s : PositioningStack G) (idx : Nat) (M : G),
      (s.changeBaseMatrix idx M).link_matrix.length = s.link_matrix.length ∧
      (s.changeBaseMatrix idx M).auxiliary.length = s.auxiliary.length) ∧
    (∀ (s : PositioningStack G) (q : List ℚ) (il sp : Bool),
      (s.fkine q il sp).2.link_matrix = s.link_matrix ∧
      (s.fkine q il sp).2.auxiliary.length = s.auxiliary.length) ∧
    (∀ (s : PositioningStack G) (q : List ℚ),
      (s.setSetPoints q).link_matrix = s.link_matrix ∧
      (s.setSetPoints q).auxiliary.length = s.auxiliary.length) := by
  refine ⟨fun _ _ => ⟨rfl, rfl⟩, ?_, ?_, ?_, ?_⟩
  · intro s p
    unfold PositioningStack.addPositioner
    cases hlast : s.auxiliary.getLast? with
    | none =>
        have haux : s.auxiliary = [] := List.getLast?_eq_none_iff.mp hlast
        simp [haux]
    | some last =>
        have hne : s.auxiliary ≠ [] := by
          intro hn
          rw [hn] at hlast
          simp at hlast
        have hpos : 0 < s.auxiliary.length := List.length_pos.mpr hne
        constructor
        · simp
        · simp only [List.length_append, List.length_dropLast, List.length_cons,
            List.length_nil]
          omega
  · intro s idx M
    unfold PositioningStack.changeBaseMatrix
    cases hg : s.auxiliary.get? idx with
    | none => exact ⟨rfl, rfl⟩
    | some p =>
        by_cases hlast : idx + 1 = s.auxiliary.length
        · simp [if_pos hlast, List.length_set]
        · simp [if_neg hlast, List.length_set]
  · intro s q il sp
    refine ⟨rfl, ?_⟩
    simp only [PositioningStack.fkine]
    rw [List.length_append, fkineAux_snd_length, List.length_zip, List.length_drop]
    omega
  · intro s q
    exact ⟨rfl, setAuxSetPoints_length s.auxiliary _⟩

/-- C9: `getPositioner` returns the current positioning stack when the
name matches the stack's name (even if the name is also a positioner
key); otherwise the named positioner when the name is a key of the
positioners mapping; otherwise a `ValueError`; and in every case the
instrument's state is unchanged. -/
theorem get_positioner_cases {G : Type} (inst : Instrument G) (name : String) :
    (name = inst.positioning_stack.name →
      inst.getPositioner name = (Except.ok (Sum.inr inst.positioning_stack), inst)) ∧
    (name ≠ inst.positioning_stack.name →
      ∀ p, assoc inst.positioners name = some p →
        inst.getPositioner name = (Except.ok (Sum.inl p), inst)) ∧
    (name ≠ inst.positioning_stack.name → assoc inst.positioners name = none →
      inst.getPositioner name
        = (Except.error ("\"" ++ name ++ "\" Positioner could not be found."), inst)) ∧
    (inst.getPositioner name).2 = inst := by
  refine ⟨?_, ?_, ?_, ?_⟩
  · intro h
    simp [Instrument.getPositioner, if_pos h]
  · intro h p hp
    simp [Instrument.getPositioner, if_neg h, hp]
  · intro h hp
    simp [Instrument.getPositioner, if_neg h, hp]
  · by_cases h : name = inst.positioning_stack.name
    · simp [Instrument.getPositioner, if_pos h]
    · cases hp : assoc inst.positioners name with
      | none => simp [Instrument.getPositioner, if_neg h, hp]
      | some p => simp [Instrument.getPositioner, if_neg h, hp]

/-- C9 witness: all three cases on a concrete instrument. -/
theorem get_positioner_cases_witness :
    egInstrument.getPositioner "s"
        = (Except.ok (Sum.inr egInstrument.positioning_stack), egInstrument) ∧
    egInstrument.getPositioner "p1" = (Except.ok (Sum.inl egChainA), egInstrument) ∧
    egInstrument.getPositioner "zzz"
        = (Except.error "\"zzz\" Positioner could not be found.", egInstrument) := by
  refine ⟨(get_positioner_cases egInstrument "s").1 rfl, ?_, ?_⟩
  · exact (get_positioner_cases egInstrument "p1").2.1 (by decide) egChainA
      (by simp [egInstrument, assoc])
  · exact (get_positioner_cases egInstrument "zzz").2.2.1 (by decide)
      (by simp [egInstrument, assoc])

/-- C10: `q_vectors` returns one vector per detector in detector order,
each the negated jaw beam direction plus the detector's diffracted beam;
the sum is handed to the normalizer only when its (squared) length
exceeds the threshold, and otherwise is returned as is — independently of
the normalizer, so normalization is never applied to a vector of length
at most `0.0001`. -/
theorem q_vectors_spec (beam : Vec3) (detectors : List Vec3) (nrm : Vec3 → Vec3) :
    (q_vectors beam detectors nrm).length = detectors.length ∧
    (∀ i, i < detectors.length →
      ((beam.neg.add (detectors.getD i ⟨0, 0, 0⟩)).lengthSq ≤ qTolSq →
        ∀ nrm2 : Vec3 → Vec3,
          (q_vectors beam detectors nrm2).getD i ⟨0, 0, 0⟩
            = beam.neg.add (detectors.getD i ⟨0, 0, 0⟩)) ∧
      (qTolSq < (beam.neg.add (detectors.getD i ⟨0, 0, 0⟩)).lengthSq →
        (q_vectors beam detectors nrm).getD i ⟨0, 0, 0⟩
          = nrm (beam.neg.add (detectors.getD i ⟨0, 0, 0⟩)))) := by
  refine ⟨by simp [q_vectors], ?_⟩
  intro i hi
  constructor
  · intro hle nrm2
    have hlen2 : i < (q_vectors beam detectors nrm2).length := by
      simpa [q_vectors] using hi
    rw [List.getD_eq_getElem _ _ hlen2]
    simp only [q_vectors, List.getElem_map]
    rw [if_neg (not_lt.mpr (by rwa [List.getD_eq_getElem _ _ hi] at hle))]
    rw [List.getD_eq_getElem _ _ hi]
  · intro hgt
    have hlen1 : i < (q_vectors beam detectors nrm).length := by
      simpa [q_vectors] using hi
    rw [List.getD_eq_getElem _ _ hlen1]
    simp only [q_vectors, List.getElem_map]
    rw [if_pos (by rwa [List.getD_eq_getElem _ _ hi] at hgt)]
    rw [List.getD_eq_getElem _ _ hi]

/-- C10 witness: concrete detectors, one with a cancelling diffracted
beam (never normalized, whatever the normalizer) and one normalized. -/
theorem q_vectors_spec_witness :
    ((egBeam.neg.add (egDetectors.getD 0 ⟨0, 0, 0⟩)).lengthSq ≤ qTolSq ∧
     (∀ nrm2 : Vec3 → Vec3, (q_vectors egBeam egDetectors nrm2).getD 0 ⟨0, 0, 0⟩
        = egBeam.neg.add (egDetectors.getD 0 ⟨0, 0, 0⟩))) ∧
    (qTolSq < (egBeam.neg.add (egDetectors.getD 1 ⟨0, 0, 0⟩)).lengthSq ∧
     (q_vectors egBeam egDetectors egNrm).getD 1 ⟨0, 0, 0⟩
        = egNrm (egBeam.neg.add (egDetectors.getD 1 ⟨0, 0, 0⟩))) :=
  ⟨⟨by norm_num [egBeam, egDetectors, Vec3.neg, Vec3.add, Vec3.lengthSq, qTolSq], fun nrm2 =>
      ((q_vectors_spec egBeam egDetectors egNrm).2 0 (by decide)).1
        (by norm_num [egBeam, egDetectors, Vec3.neg, Vec3.add, Vec3.lengthSq, qTolSq]) nrm2⟩,
   ⟨by norm_num [egBeam, egDetectors, Vec3.neg, Vec3.add, Vec3.lengthSq, qTolSq],
      ((q_vectors_spec egBeam egDetectors egNrm).2 1 (by decide)).2
        (by norm_num [egBeam, egDetectors, Vec3.neg, Vec3.add, Vec3.lengthSq, qTolSq])⟩⟩

/-- C4: the modelled solver result has `status = Converged` exactly when
both convergence flags hold, and its status is always either `Converged`
or `Failed` — there is no separate timeout status, and no result is
`Converged` while either flag is false. -/
theorem ik_status_converged_iff (q : List ℚ) (pe oe : Vec3) (tol : ℚ × ℚ) :
    ((mkIKResult q pe oe tol).status = IKStatus.Converged ↔
      ((mkIKResult q pe oe tol).position_converged = true ∧
       (mkIKResult q pe oe tol).orientation_converged = true)) ∧
    ((mkIKResult q pe oe tol).status = IKStatus.Converged ∨
     (mkIKResult q pe oe tol).status = IKStatus.Failed) := by
  constructor
  · simp only [mkIKResult]
    cases hp : decide (pe.lengthSq ≤ tol.2 ^ 2) <;>
      cases ho : decide (oe.lengthSq ≤ tol.1 ^ 2) <;> simp [hp, ho]
  · cases h : (mkIKResult q pe oe tol).status
    · exact Or.inl rfl
    · exact Or.inr rfl

/-- C6: `runSimulation` detects its preconditions before any work: with
no alignment, or no measurement points, or a previous simulation still
running, the state's simulation is unchanged (so no per-target result is
published) and no simulation-created or simulation-started event is
emitted; in the first two cases only a message is shown. -/
theorem run_simulation_preconditions (st : PresenterState) :
    (st.alignment = none →
      runSimulation st = (st,
        [UIEvent.showMessage "Sample must be aligned on the instrument for Simulation"])) ∧
    (∀ a, st.alignment = some a → st.measurement_points_size = 0 →
      runSimulation st = (st,
        [UIEvent.showMessage "Measurement points should be added before Simulation"])) ∧
    (∀ a sim, st.alignment = some a → st.measurement_points_size ≠ 0 →
      st.simulation = some sim → sim.running = true →
      runSimulation st = (st, [UIEvent.showSimulationResults])) ∧
    ((st.alignment = none ∨ st.measurement_points_size = 0 ∨
        (∃ sim, st.simulation = some sim ∧ sim.running = true)) →
      (runSimulation st).1.simulation = st.simulation ∧
      UIEvent.simulationCreated ∉ (runSimulation st).2 ∧
      UIEvent.simulationStarted ∉ (runSimulation st).2) := by
  refine ⟨?_, ?_, ?_, ?_⟩
  · intro h
    simp [runSimulation, h]
  · intro a ha h0
    simp [runSimulation, ha, h0]
  · intro a sim ha h0 hs hr
    simp [runSimulation, ha, h0, hs, hr]
  · intro hpre
    cases ha : st.alignment with
    | none => simp [runSimulation, ha]
    | some a =>
        by_cases h0 : st.measurement_points_size = 0
        · simp [runSimulation, ha, h0]
        · rcases hpre with h | h | ⟨sim, hs, hr⟩
          · rw [ha] at h; exact absurd h (by simp)
          · exact absurd h h0
          · simp [runSimulation, ha, h0, hs, hr]

/-- C6 witness: the three precondition violations on concrete presenter
states. -/
theorem run_simulation_preconditions_witness :
    (runSimulation stNoAlign = (stNoAlign,
      [UIEvent.showMessage "Sample must be aligned on the instrument for Simulation"])) ∧
    (runSimulation stNoPoints = (stNoPoints,
      [UIEvent.showMessage "Measurement points should be added before Simulation"])) ∧
    (runSimulation stRunning = (stRunning, [UIEvent.showSimulationResults])) ∧
    ((runSimulation stRunning).1.simulation = stRunning.simulation ∧
      UIEvent.simulationCreated ∉ (runSimulation stRunning).2 ∧
      UIEvent.simulationStarted ∉ (runSimulation stRunning).2) :=
  ⟨(run_simulation_preconditions stNoAlign).1 rfl,
   (run_simulation_preconditions stNoPoints).2.1 () rfl rfl,
   (run_simulation_preconditions stRunning).2.2.1 () egSimRunning rfl (by decide) rfl rfl,
   (run_simulation_preconditions stRunning).2.2.2
     (Or.inr (Or.inr ⟨egSimRunning, rfl, rfl⟩))⟩

end SScanSS
